import Mathlib

/-!
Verification of the FintechResearcherBot query-orchestration core.

Shallow embedding conventions:
* Go strings are modelled as `List Char` (`Str`); all concrete inputs used in
  witnesses and counterexamples are ASCII, where Go byte indexing/length and
  the char-list model coincide.
* Go `float64` scores and confidences are modelled as `ℚ` (the claims under
  study are order-theoretic only; NaN/Inf never arise from the providers).
* Go `int` is modelled as `Int` or `Nat` as noted at each definition.
* `sort.Slice` (Go standard library) is modelled two ways: by its documented
  contract (some permutation of the input that is sorted by the comparator;
  stability is NOT guaranteed), and by an executable transcription of its
  actual implementation (pdqsort, src/sort/zsortfunc.go of Go 1.19+, which is
  what the Go 1.24 toolchain of this repository ships).
-/

namespace FintechBot

/-- Go strings, modelled as lists of characters. -/
abbrev Str := List Char

/-- Whitespace recognised by strings.TrimSpace (ASCII part of unicode.IsSpace:
space, tab, newline, vertical tab, form feed, carriage return). -/
def isSpaceChar (c : Char) : Bool :=
  c = ' ' || c = '\t' || c = '\n' || c = Char.ofNat 11 || c = Char.ofNat 12 || c = '\r'

/-- Drop leading whitespace (left half of strings.TrimSpace). -/
def trimLeft (s : Str) : Str := s.dropWhile isSpaceChar

/-- Drop trailing whitespace (right half of strings.TrimSpace). -/
def trimRight (s : Str) : Str := (s.reverse.dropWhile isSpaceChar).reverse

/-- strings.TrimSpace from the Go standard library. -/
def goTrimSpace (s : Str) : Str := trimRight (trimLeft s)

/-- strings.ToLower (ASCII case mapping; all keyword sets in the repository are
ASCII). -/
def goToLower (s : Str) : Str := s.map Char.toLower

/-- Does pre start the string s? (strings.HasPrefix). -/
def startsWith : Str → Str → Bool
  | [], _ => true
  | _ :: _, [] => false
  | a :: as, b :: bs => a = b && startsWith as bs

/-- strings.Contains: substring containment. -/
def goContains : Str → Str → Bool
  | [], sub => sub.isEmpty
  | c :: t, sub => startsWith sub (c :: t) || goContains t sub

/-- Decimal rendering of a natural number, as used by fmt.Sprintf with the d
verb on a non-negative int. -/
def natToStr (n : Nat) : Str := (Nat.repr n).toList

/-! ## internal/domain/query.go -/

/-- MaxQueryLength from internal/domain/query.go. -/
def MaxQueryLength : Nat := 1000

/-- QueryRequest.Sanitize from internal/domain/query.go:
trim surrounding whitespace, then truncate to MaxQueryLength bytes. -/
def sanitize (text : Str) : Str :=
  let t := goTrimSpace text
  if t.length > MaxQueryLength then t.take MaxQueryLength else t

/-- Domain error values from internal/domain (errors.go and strategy file). -/
inductive DomainError where
  | errEmptyQuery
  | errQueryTooLong
  | errInvalidStrategyType
  | errInvalidMaxQueries
  | errInvalidMaxResults
  | errInvalidAnalysisIter
  | errInvalidTimeoutSeconds
  deriving DecidableEq, Repr

/-- Strategy value object from the domain package (strategy file). Go ints are
modelled as `Int`. The Type field is a Go string enum. -/
structure Strategy where
  type : Str
  maxQueries : Int
  maxResults : Int
  maxAnalysisIterations : Int
  useCritic : Bool
  timeoutSeconds : Int
  deriving DecidableEq, Repr

/-- StrategyType.IsValid: membership in the closed set quick/standard/deep. -/
def strategyTypeIsValid (t : Str) : Bool :=
  t = "quick".toList || t = "standard".toList || t = "deep".toList

/-- Strategy.Validate from the domain package; `none` means no error. -/
def strategyValidate (s : Strategy) : Option DomainError :=
  if ¬ strategyTypeIsValid s.type then some .errInvalidStrategyType
  else if s.maxQueries < 1 ∨ s.maxQueries > 10 then some .errInvalidMaxQueries
  else if s.maxResults < 1 ∨ s.maxResults > 100 then some .errInvalidMaxResults
  else if s.maxAnalysisIterations < 1 then some .errInvalidAnalysisIter
  else if s.timeoutSeconds < 1 then some .errInvalidTimeoutSeconds
  else none

/-- QueryRequest from internal/domain/query.go. -/
structure QueryRequest where
  userID : Int
  text : Str
  onlyReliable : Bool
  strategy : Strategy
  deriving DecidableEq, Repr

/-- QueryRequest.Validate from internal/domain/query.go: empty check on the
trimmed text first, then the byte-length cap, then strategy validation. -/
def queryValidate (q : QueryRequest) : Option DomainError :=
  if goTrimSpace q.text = [] then some .errEmptyQuery
  else if q.text.length > MaxQueryLength then some .errQueryTooLong
  else strategyValidate q.strategy

/-! ## internal/domain trust levels and internal/search results -/

/-- TrustLevel from the domain package (a Go string enum with three values;
only the three valid values ever reach toSourceRefs, via the trust map or the
TrustMedium default). -/
inductive TrustLevel where
  | high
  | medium
  | low
  deriving DecidableEq, Repr

/-- SearchResult from internal/search/search.go (publishedDate omitted: no
claim under study mentions it). Score is float64 in Go, modelled as ℚ. -/
structure SearchResult where
  title : Str
  url : Str
  content : Str
  score : ℚ
  deriving DecidableEq, Repr

instance : Inhabited SearchResult := ⟨⟨[], [], [], 0⟩⟩

/-- SourceRef from internal/domain/query.go. -/
structure SourceRef where
  marker : Str
  title : Str
  url : Str
  trustLevel : TrustLevel
  deriving DecidableEq, Repr

/-- extractDomain from internal/service/query.go: strip an
https:// or http:// scheme, cut at the first slash, strip www. -/
def trimPre (pre s : Str) : Str :=
  if startsWith pre s then s.drop pre.length else s

/-- strings.Index(url, "/") followed by url[:idx]: keep everything before the
first slash (the whole string when there is none). -/
def cutAtSlash (s : Str) : Str := s.takeWhile (fun c => c ≠ '/')

/-- extractDomain from internal/service/query.go. -/
def extractDomain (url : Str) : Str :=
  trimPre ("www.".toList) (cutAtSlash (trimPre ("http://".toList) (trimPre ("https://".toList) url)))

/-- The Go map lookup trustMap[resultDomain]; the map is modelled as an
association list with leftmost-key-wins lookup. -/
def lookupTrust (trustMap : List (Str × TrustLevel)) (d : Str) : Option TrustLevel :=
  match trustMap with
  | [] => none
  | (k, v) :: rest => if k = d then some v else lookupTrust rest d

/-- toSourceRefs from internal/service/query.go: one SourceRef per result,
marker [S(i+1)], trust from the domain→trust map with TrustMedium default. -/
def toSourceRefs (results : List SearchResult) (trustMap : List (Str × TrustLevel)) :
    List SourceRef :=
  (List.range results.length).map fun i =>
    let r := results.getD i default
    let trustLevel :=
      match lookupTrust trustMap (extractDomain r.url) with
      | some level => level
      | none => TrustLevel.medium
    { marker := "[S".toList ++ natToStr (i + 1) ++ "]".toList
      title := r.title
      url := r.url
      trustLevel := trustLevel }

/-! ## internal/domain/critic.go and internal/service/critic.go -/

/-- CriticResult from internal/domain/critic.go; Confidence is float64 in Go,
modelled as ℚ. -/
structure CriticResult where
  approved : Bool
  issues : List Str
  suggestions : List Str
  confidence : ℚ
  deriving DecidableEq, Repr

/-- CriticConfig from internal/domain/critic.go (MaxRetries is a Go int; the
claims under study restrict it to R ≥ 0, encoded as Nat below where used). -/
structure CriticConfig where
  maxRetries : Int
  strictMode : Bool
  deriving DecidableEq, Repr

/-- CriticResult.NeedsRevisionStrict from internal/domain/critic.go. -/
def needsRevisionStrict (r : CriticResult) (strictMode : Bool) : Bool :=
  !r.approved || r.issues.length > 0 || (strictMode && r.suggestions.length > 0)

/-- Depth-counting scan of extractJSON (internal/service/critic.go), started
on the suffix of the input that begins at its first brace: depth is the brace
depth before consuming the current character; when a closing brace brings the
depth to zero the scan stops and keeps it; if the scan exhausts the input the
whole suffix is kept (Go returns s[start:]). -/
def takeBalanced : Nat → Str → Str
  | _, [] => []
  | depth, c :: cs =>
    if c = '{' then c :: takeBalanced (depth + 1) cs
    else if c = '}' then
      if depth = 1 then [c] else c :: takeBalanced (depth - 1) cs
    else c :: takeBalanced depth cs

/-- The suffix of s beginning at the first opening brace (strings.Index on
a one-byte pattern), or none when there is no brace. -/
def fromFirstBrace : Str → Option Str
  | [] => none
  | c :: cs => if c = '{' then some (c :: cs) else fromFirstBrace cs

/-- extractJSON from internal/service/critic.go: the first balanced top-level
braced substring; the input itself when no opening brace exists. -/
def extractJSON (s : Str) : Str :=
  match fromFirstBrace s with
  | none => s
  | some rest => takeBalanced 0 rest

/-- The tolerant CriticResult synthesised by parseResponse on a JSON parse
failure (internal/service/critic.go). -/
def tolerantCriticResult : CriticResult :=
  { approved := true
    issues := ["critic_parse_failed: could not parse LLM response".toList]
    suggestions := []
    confidence := 3 / 10 }

/-- CriticService.parseResponse from internal/service/critic.go. Go's
json.Unmarshal into the anonymous result struct is an external library call,
passed in as the oracle `unmarshal` (none = parse error). -/
def parseResponse (unmarshal : Str → Option CriticResult) (llmResponse : Str) :
    CriticResult :=
  match unmarshal (extractJSON llmResponse) with
  | some r => r
  | none => tolerantCriticResult

/-- Truncation of a source content for prompts: content[:n] + "..." when the
content exceeds n bytes (internal/service/critic.go buildPrompt and the
analyze/improve prompts in internal/service/query.go). -/
def truncContent (n : Nat) (content : Str) : Str :=
  if content.length > n then content.take n ++ "...".toList else content

/-- CriticService.buildPrompt from internal/service/critic.go. -/
def buildPrompt (answer : Str) (sources : List SearchResult) (question : Str) : Str :=
  "=== ORIGINAL QUESTION ===\n".toList ++ question ++ "\n\n".toList ++
  "=== SOURCES PROVIDED ===\n".toList ++
  (if sources.length = 0 then ("No sources provided.\n".toList)
   else List.flatten ((List.range sources.length).map fun i =>
     let src := sources.getD i default
     "[S".toList ++ natToStr (i + 1) ++ "] ".toList ++ src.title ++
       " (".toList ++ src.url ++ ")\n".toList ++
     "Content: ".toList ++ truncContent 1500 src.content ++ "\n\n".toList)) ++
  "=== ANSWER TO REVIEW ===\n".toList ++ answer ++ "\n\n".toList ++
  "=== INSTRUCTIONS ===\n".toList ++
  "Please evaluate the answer above. Check if all claims are supported by the sources, ".toList ++
  "if the answer is complete, and if there are any hallucinations or unsupported facts. ".toList ++
  "Respond with JSON only.".toList

/-- Error kinds that can surface from Review: context cancellation or an LLM
failure (the concrete Go error values are irrelevant to the claims). -/
inductive ReviewError where
  | ctxDone
  | llmFailed
  deriving DecidableEq, Repr

/-- CriticService.Review from internal/service/critic.go: fail on a cancelled
context, fail on an LLM error, otherwise parse tolerantly and succeed. The
LLM call CompleteWithSystem is the oracle `llm`, applied to the user prompt
built by buildPrompt (the system prompt is the fixed CriticSystemPrompt). -/
def review (llm : Str → Except ReviewError Str) (unmarshal : Str → Option CriticResult)
    (ctxDone : Bool) (answer : Str) (sources : List SearchResult) (question : Str) :
    Except ReviewError CriticResult :=
  if ctxDone then .error .ctxDone
  else
    match llm (buildPrompt answer sources question) with
    | .error e => .error e
    | .ok response => .ok (parseResponse unmarshal response)

/-! ## reviewWithCritic (internal/service/query.go)

The loop `for attempt := 0; attempt <= maxRetries; attempt++` of
reviewWithCritic is embedded by structural recursion on
`remaining = maxRetries - attempt`; for maxRetries ≥ 0 the two are
equivalent: the loop is entered with attempt = 0 ≤ maxRetries, the body
returns whenever `attempt >= maxRetries` (remaining = 0) before advancing,
so the top-of-loop test never fails and the trailing return is unreachable.
The critic Review and the improveAnswer LLM call are oracles indexed by the
attempt number and the current answer, which makes the number of calls to
each directly countable: the embedding returns
(final answer, number of Review calls, number of improve calls). -/

/-- One run of the reviewWithCritic loop body chain, from a given attempt with
`remaining = maxRetries - attempt` retries left. -/
def reviewLoop (strict : Bool)
    (reviewOracle : Nat → Str → Except ReviewError CriticResult)
    (improveOracle : Nat → Str → CriticResult → Except ReviewError Str) :
    Nat → Nat → Str → Str × Nat × Nat
  | remaining, attempt, current =>
    match reviewOracle attempt current with
    | .error _ => (current, 1, 0)
    | .ok result =>
      if ¬ needsRevisionStrict result strict then (current, 1, 0)
      else
        match remaining with
        | 0 => (current, 1, 0)
        | r + 1 =>
          match improveOracle attempt current result with
          | .error _ => (current, 1, 1)
          | .ok improved =>
            let out := reviewLoop strict reviewOracle improveOracle r (attempt + 1) improved
            (out.1, out.2.1 + 1, out.2.2 + 1)

/-- reviewWithCritic from internal/service/query.go, for MaxRetries = R ≥ 0,
instrumented with call counts. -/
def reviewWithCritic (strict : Bool)
    (reviewOracle : Nat → Str → Except ReviewError CriticResult)
    (improveOracle : Nat → Str → CriticResult → Except ReviewError Str)
    (maxRetries : Nat) (answer : Str) : Str × Nat × Nat :=
  reviewLoop strict reviewOracle improveOracle maxRetries 0 answer

/-! ## Go sort.Slice (src/sort/zsortfunc.go, Go 1.19 through 1.24)

searchWithCache and selectAgents sort with sort.Slice, which Go implements
with pdqsort and documents as NOT guaranteed to be stable. The transcription
below follows zsortfunc.go function by function. All loops carry an explicit
fuel argument; every loop in pdqsort advances an index inside [a, b) or
strictly shrinks the segment, so any fuel of at least size² + 100 (supplied
by goSortSlice below) strictly dominates every trip count and the fuel-0
fallbacks are never reached. -/

section GoSort

variable {α : Type} [Inhabited α]

/-- Read data[i] (indices produced by pdqsort are always in bounds). -/
def aget (arr : Array α) (i : Nat) : α := arr.getD i default

/-- data.Swap(i, j). -/
def aswap (arr : Array α) (i j : Nat) : Array α :=
  let x := aget arr i
  let y := aget arr j
  (arr.setD i y).setD j x

/-- Inner loop of insertionSort_func: shift element j left while it is less
than its left neighbour and j > a. -/
def insInner (less : α → α → Bool) : Nat → Array α → Nat → Nat → Array α
  | 0, arr, _, _ => arr
  | fuel + 1, arr, j, a =>
    if a < j ∧ less (aget arr j) (aget arr (j - 1)) then
      insInner less fuel (aswap arr j (j - 1)) (j - 1) a
    else arr

/-- Outer loop of insertionSort_func: i from a+1 up to b. -/
def insOuter (less : α → α → Bool) : Nat → Array α → Nat → Nat → Nat → Array α
  | 0, arr, _, _, _ => arr
  | fuel + 1, arr, i, b, a =>
    if i < b then insOuter less fuel (insInner less (i + 1) arr i a) (i + 1) b a
    else arr

/-- insertionSort_func(data, a, b). -/
def insertionSortGo (less : α → α → Bool) (arr : Array α) (a b : Nat) : Array α :=
  insOuter less (b + 1) arr (a + 1) b a

/-- siftDown_func(data, lo, hi, first): the root index strictly increases
below hi on every iteration. -/
def siftDownGo (less : α → α → Bool) : Nat → Array α → Nat → Nat → Nat → Array α
  | 0, arr, _, _, _ => arr
  | fuel + 1, arr, root, hi, first =>
    let child := 2 * root + 1
    if child ≥ hi then arr
    else
      let child :=
        if child + 1 < hi ∧ less (aget arr (first + child)) (aget arr (first + child + 1))
        then child + 1 else child
      if ¬ less (aget arr (first + root)) (aget arr (first + child)) then arr
      else siftDownGo less fuel (aswap arr (first + root) (first + child)) child hi first

/-- First loop of heapSort_func: i from (hi-1)/2 down to 0; count is the
number of iterations left, the current i being count-1. -/
def heapBuild (less : α → α → Bool) (hi first : Nat) : Nat → Array α → Array α
  | 0, arr => arr
  | count + 1, arr => heapBuild less hi first count (siftDownGo less (hi + 1) arr count hi first)

/-- Second loop of heapSort_func: i from hi-1 down to 0; swap the max to
position i, then sift the new root down within [0, i). -/
def heapPop (less : α → α → Bool) (first : Nat) : Nat → Array α → Array α
  | 0, arr => arr
  | count + 1, arr =>
    let i := count
    let arr := aswap arr first (first + i)
    heapPop less first count (siftDownGo less (i + 1) arr 0 i first)

/-- heapSort_func(data, a, b). -/
def heapSortGo (less : α → α → Bool) (arr : Array α) (a b : Nat) : Array α :=
  let first := a
  let hi := b - a
  let arr := heapBuild less hi first ((hi - 1) / 2 + 1) arr
  heapPop less first hi arr

/-- order2_func: order two indices by the data they point at, counting a swap
of the index variables when performed. -/
def order2Go (less : α → α → Bool) (arr : Array α) (a b swaps : Nat) : Nat × Nat × Nat :=
  if less (aget arr b) (aget arr a) then (b, a, swaps + 1) else (a, b, swaps)

/-- median_func: index of the median of three, swap-counting. -/
def medianGo (less : α → α → Bool) (arr : Array α) (a b c swaps : Nat) : Nat × Nat :=
  let (a, b, swaps) := order2Go less arr a b swaps
  let (b, _c, swaps) := order2Go less arr b c swaps
  let (_a, b, swaps) := order2Go less arr a b swaps
  (b, swaps)

/-- medianAdjacent_func: median of an index and its two neighbours. -/
def medianAdjacentGo (less : α → α → Bool) (arr : Array α) (a swaps : Nat) : Nat × Nat :=
  medianGo less arr (a - 1) a (a + 1) swaps

/-- The sortedness hint returned by choosePivot_func. -/
inductive Hint where
  | unknown
  | increasing
  | decreasing
  deriving DecidableEq, Repr

/-- choosePivot_func(data, a, b): median of three (ninther above length 50),
with the swap count turned into a sortedness hint. -/
def choosePivotGo (less : α → α → Bool) (arr : Array α) (a b : Nat) : Nat × Hint :=
  let l := b - a
  let i := a + l / 4 * 1
  let j := a + l / 4 * 2
  let k := a + l / 4 * 3
  let (_i, j, _k, swaps) :=
    if l ≥ 8 then
      let (i, j, k, swaps) :=
        if l ≥ 50 then
          let (i, s1) := medianAdjacentGo less arr i 0
          let (j, s2) := medianAdjacentGo less arr j s1
          let (k, s3) := medianAdjacentGo less arr k s2
          (i, j, k, s3)
        else (i, j, k, 0)
      let (j, swaps) := medianGo less arr i j k swaps
      (i, j, k, swaps)
    else (i, j, k, 0)
  if swaps = 0 then (j, Hint.increasing)
  else if swaps = 12 then (j, Hint.decreasing)
  else (j, Hint.unknown)

/-- reverseRange_func(data, a, b). -/
def reverseRangeGo : Nat → Array α → Nat → Nat → Array α
  | 0, arr, _, _ => arr
  | fuel + 1, arr, i, j =>
    if i < j then reverseRangeGo fuel (aswap arr i j) (i + 1) (j - 1) else arr

/-- Scan of partition_func: advance i while i ≤ j and data[i] < pivot
(the pivot value sits at index a during partitioning). -/
def scanLt (less : α → α → Bool) (arr : Array α) (a : Nat) : Nat → Nat → Nat → Nat
  | 0, i, _ => i
  | fuel + 1, i, j =>
    if i ≤ j ∧ less (aget arr i) (aget arr a) then scanLt less arr a fuel (i + 1) j else i

/-- Scan of partition_func: retreat j while i ≤ j and data[j] is not < pivot. -/
def scanGe (less : α → α → Bool) (arr : Array α) (a : Nat) : Nat → Nat → Nat → Nat
  | 0, _, j => j
  | fuel + 1, i, j =>
    if i ≤ j ∧ ¬ less (aget arr j) (aget arr a) then scanGe less arr a fuel i (j - 1) else j

/-- Main loop of partition_func after the first crossing swap. -/
def partitionLoop (less : α → α → Bool) (a b : Nat) : Nat → Array α → Nat → Nat → Array α × Nat
  | 0, arr, _, j => (arr, j)
  | fuel + 1, arr, i, j =>
    let i := scanLt less arr a (b + 2) i j
    let j := scanGe less arr a (b + 2) i j
    if i > j then (arr, j)
    else partitionLoop less a b fuel (aswap arr i j) (i + 1) (j - 1)

/-- partition_func(data, a, b, pivot): Hoare-style partition around the pivot
moved to index a; returns (data, newpivot, alreadyPartitioned). The initial
Swap(a, pivot) is what makes sort.Slice unstable. -/
def partitionGo (less : α → α → Bool) (arr : Array α) (a b pivot : Nat) :
    Array α × Nat × Bool :=
  let arr := aswap arr a pivot
  let i := a + 1
  let j := b - 1
  let i := scanLt less arr a (b + 2) i j
  let j := scanGe less arr a (b + 2) i j
  if i > j then (aswap arr j a, j, true)
  else
    let arr := aswap arr i j
    let (arr, j) := partitionLoop less a b (b + 2) arr (i + 1) (j - 1)
    (aswap arr j a, j, false)

/-- Scan of partitionEqual_func: advance i while i ≤ j and not pivot < data[i]. -/
def scanEqI (less : α → α → Bool) (arr : Array α) (a : Nat) : Nat → Nat → Nat → Nat
  | 0, i, _ => i
  | fuel + 1, i, j =>
    if i ≤ j ∧ ¬ less (aget arr a) (aget arr i) then scanEqI less arr a fuel (i + 1) j else i

/-- Scan of partitionEqual_func: retreat j while i ≤ j and pivot < data[j]. -/
def scanEqJ (less : α → α → Bool) (arr : Array α) (a : Nat) : Nat → Nat → Nat → Nat
  | 0, _, j => j
  | fuel + 1, i, j =>
    if i ≤ j ∧ less (aget arr a) (aget arr j) then scanEqJ less arr a fuel i (j - 1) else j

/-- Main loop of partitionEqual_func; returns (data, i). -/
def partitionEqualLoop (less : α → α → Bool) (a b : Nat) :
    Nat → Array α → Nat → Nat → Array α × Nat
  | 0, arr, i, _ => (arr, i)
  | fuel + 1, arr, i, j =>
    let i := scanEqI less arr a (b + 2) i j
    let j := scanEqJ less arr a (b + 2) i j
    if i > j then (arr, i)
    else partitionEqualLoop less a b fuel (aswap arr i j) (i + 1) (j - 1)

/-- partitionEqual_func(data, a, b, pivot): partitions elements equal to the
pivot to the left; returns (data, newpivot). -/
def partitionEqualGo (less : α → α → Bool) (arr : Array α) (a b pivot : Nat) :
    Array α × Nat :=
  let arr := aswap arr a pivot
  partitionEqualLoop less a b (b + 2) arr (a + 1) (b - 1)

/-- Advance loop of partialInsertionSort_func: move i right while in order. -/
def pisAdvance (less : α → α → Bool) (arr : Array α) (b : Nat) : Nat → Nat → Nat
  | 0, i => i
  | fuel + 1, i =>
    if i < b ∧ ¬ less (aget arr i) (aget arr (i - 1)) then pisAdvance less arr b fuel (i + 1)
    else i

/-- Left shift loop of partialInsertionSort_func: j from i-1 down while j ≥ 1
and out of order (the 1 bound is as written in the Go source). -/
def pisShiftLeft (less : α → α → Bool) : Nat → Array α → Nat → Array α
  | 0, arr, _ => arr
  | fuel + 1, arr, j =>
    if j ≥ 1 ∧ less (aget arr j) (aget arr (j - 1)) then
      pisShiftLeft less fuel (aswap arr j (j - 1)) (j - 1)
    else arr

/-- Right shift loop of partialInsertionSort_func: j from i+1 up while j < b
and out of order. -/
def pisShiftRight (less : α → α → Bool) (b : Nat) : Nat → Array α → Nat → Array α
  | 0, arr, _ => arr
  | fuel + 1, arr, j =>
    if j < b ∧ less (aget arr j) (aget arr (j - 1)) then
      pisShiftRight less b fuel (aswap arr j (j - 1)) (j + 1)
    else arr

/-- Step loop of partialInsertionSort_func (maxSteps = 5 adjacent out-of-order
pairs may be shifted; arrays shorter than 50 are never shifted). -/
def pisSteps (less : α → α → Bool) (a b : Nat) : Nat → Array α → Nat → Array α × Bool
  | 0, arr, _ => (arr, false)
  | steps + 1, arr, i =>
    let i := pisAdvance less arr b (b + 1) i
    if i = b then (arr, true)
    else if b - a < 50 then (arr, false)
    else
      let arr := aswap arr i (i - 1)
      let arr := if i - a ≥ 2 then pisShiftLeft less i arr (i - 1) else arr
      let arr := if b - i ≥ 2 then pisShiftRight less b (b + 1) arr (i + 1) else arr
      pisSteps less a b steps arr i

/-- partialInsertionSort_func(data, a, b): returns (data, fully sorted?). -/
def partialInsertionSortGo (less : α → α → Bool) (arr : Array α) (a b : Nat) :
    Array α × Bool :=
  pisSteps less a b 5 arr (a + 1)

/-- The xorshift generator of src/sort (a uint64 state). -/
def xorshiftNext (r : Nat) : Nat × Nat :=
  let r := (r ^^^ (r <<< 13)) % 2 ^ 64
  let r := r ^^^ (r >>> 7)
  let r := (r ^^^ (r <<< 17)) % 2 ^ 64
  (r, r)

/-- bits.Len for a non-negative value. -/
def bitsLen (n : Nat) : Nat := if n = 0 then 0 else n.log2 + 1

/-- nextPowerOfTwo from src/sort. -/
def nextPowerOfTwo (length : Nat) : Nat := 1 <<< bitsLen length

/-- The three swaps of breakPatterns_func. -/
def breakPatternsLoop (length modulus a idx : Nat) :
    Nat → Array α → Nat → Array α
  | 0, arr, _ => arr
  | count + 1, arr, rnd =>
    let i := 3 - (count + 1)
    let (v, rnd) := xorshiftNext rnd
    let other := v &&& (modulus - 1)
    let other := if other ≥ length then other - length else other
    breakPatternsLoop length modulus a idx count (aswap arr (idx - 1 + i) (a + other)) rnd

/-- breakPatterns_func(data, a, b). -/
def breakPatternsGo (arr : Array α) (a b : Nat) : Array α :=
  let length := b - a
  if length ≥ 8 then
    let modulus := nextPowerOfTwo length
    let idx := a + length / 4 * 2 - 1
    breakPatternsLoop length modulus a idx 3 arr length
  else arr

/-- pdqsort_func(data, a, b, limit): the driver loop, with the loop-carried
wasBalanced/wasPartitioned flags as parameters (fresh recursive calls pass
true/true, loop continuations pass the current values, exactly as the Go
local variables behave). -/
def pdqsortGo (less : α → α → Bool) : Nat → Array α → Nat → Nat → Nat → Bool → Bool → Array α
  | 0, arr, _, _, _, _, _ => arr
  | fuel + 1, arr, a, b, limit, wasBalanced, wasPartitioned =>
    let length := b - a
    if length ≤ 12 then insertionSortGo less arr a b
    else if limit = 0 then heapSortGo less arr a b
    else
      let (arr, limit) :=
        if ¬ wasBalanced then (breakPatternsGo arr a b, limit - 1) else (arr, limit)
      let (pivot, hint) := choosePivotGo less arr a b
      let (arr, pivot, hint) :=
        if hint = Hint.decreasing then
          (reverseRangeGo (b + 1) arr a b, (b - 1) - (pivot - a), Hint.increasing)
        else (arr, pivot, hint)
      let (arr, done) :=
        if wasBalanced ∧ wasPartitioned ∧ hint = Hint.increasing then
          partialInsertionSortGo less arr a b
        else (arr, false)
      if done then arr
      else if a > 0 ∧ ¬ less (aget arr (a - 1)) (aget arr pivot) then
        let (arr, mid) := partitionEqualGo less arr a b pivot
        pdqsortGo less fuel arr mid b limit wasBalanced wasPartitioned
      else
        let (arr, mid, alreadyPartitioned) := partitionGo less arr a b pivot
        let wasPartitioned := alreadyPartitioned
        let leftLen := mid - a
        let rightLen := b - mid
        let balanceThreshold := length / 8
        let wasBalanced := min leftLen rightLen ≥ balanceThreshold
        if leftLen < rightLen then
          let arr := pdqsortGo less fuel arr a mid limit true true
          pdqsortGo less fuel arr (mid + 1) b limit wasBalanced wasPartitioned
        else
          let arr := pdqsortGo less fuel arr (mid + 1) b limit true true
          pdqsortGo less fuel arr a mid limit wasBalanced wasPartitioned

/-- sort.Slice(x, less) on a list: pdqsort over the whole range with the
initial depth limit bits.Len(len). -/
def goSortSlice (less : α → α → Bool) (l : List α) : List α :=
  let arr := l.toArray
  (pdqsortGo less (arr.size * arr.size + 100) arr 0 arr.size (bitsLen arr.size) true true).toList

end GoSort

/-! ## searchWithCache merge phase (internal/service/query.go) -/

/-- The URL-dedup of searchWithCache: the seen map is an accumulated list of
URLs; first occurrence of a URL wins. -/
def dedupAux (seen : List Str) : List SearchResult → List SearchResult
  | [] => []
  | r :: rs =>
    if r.url ∈ seen then dedupAux seen rs
    else r :: dedupAux (r.url :: seen) rs

/-- Deduplicate by URL, first occurrence wins (searchWithCache merge loop over
the drained results channel). -/
def dedupByURL (l : List SearchResult) : List SearchResult := dedupAux [] l

/-- The comparator of searchWithCache: Less(i, j) = Score_i > Score_j. -/
def scoreLess (x y : SearchResult) : Bool := decide (y.score < x.score)

/-- The merge phase of searchWithCache, executable, with sort.Slice
transcribed as pdqsort: dedup by URL, sort by descending score, truncate. The
argument is the concatenation of the per-query result lists in the order they
were drained from the results channel. -/
def searchMerge (merged : List SearchResult) (maxResults : Nat) : List SearchResult :=
  let allResults := dedupByURL merged
  let sorted := goSortSlice scoreLess allResults
  if sorted.length > maxResults then sorted.take maxResults else sorted

/-- Non-increasing scores from first to last. -/
def SortedByScoreDesc (l : List SearchResult) : Prop :=
  List.Pairwise (fun x y => y.score ≤ x.score) l

instance : DecidablePred SortedByScoreDesc := fun l =>
  List.instDecidablePairwise l

/-- The merge phase of searchWithCache, specified against the documented
contract of sort.Slice: the sorted list is SOME permutation of the deduped
input that is pairwise ordered by the comparator (Go documents sort.Slice as
not guaranteed to be stable, so no more can be assumed); then truncated to
maxResults exactly as the code does. Every actual execution of the merge
phase satisfies this relation. -/
def SearchMergeOutcome (merged : List SearchResult) (maxResults : Nat)
    (out : List SearchResult) : Prop :=
  ∃ sorted : List SearchResult,
    sorted.Perm (dedupByURL merged) ∧ SortedByScoreDesc sorted ∧
    out = if sorted.length > maxResults then sorted.take maxResults else sorted

/-! ## internal/agent: BaseAgent.CanHandle and Coordinator.selectAgents -/

/-- The number of keywords of an agent that match the lower-cased question by
lower-case substring containment (the counting loop of BaseAgent.CanHandle). -/
def matchCount (keywords : List Str) (question : Str) : Nat :=
  let q := goToLower question
  (keywords.filter (fun kw => goContains q (goToLower kw))).length

/-- BaseAgent.CanHandle from the agent package: 0 without keywords, 0 when no
keyword matches, otherwise matches/|keywords| raised to at least 0.5. -/
def canHandle (keywords : List Str) (question : Str) : ℚ :=
  if keywords.length = 0 then 0
  else
    let nMatches := matchCount keywords question
    if nMatches = 0 then 0
    else
      let conf : ℚ := (nMatches : ℚ) / (keywords.length : ℚ)
      if conf < 1 / 2 then 1 / 2 else conf

/-- An agent as the Coordinator sees it: a name and the CanHandle scoring
method (the Agent interface; BaseAgent implements CanHandle as canHandle
above). -/
structure Agent where
  name : Str
  canHandleFn : Str → ℚ

/-- Coordinator.maxAgentsFor from the agent package: switch on the strategy
type string. -/
def maxAgentsFor (strategyType : Str) : Nat :=
  if strategyType = "quick".toList then 1
  else if strategyType = "standard".toList then 2
  else if strategyType = "deep".toList then 4
  else 2

/-- The minConfidence threshold set by NewCoordinator. -/
def minConfidence : ℚ := 3 / 10

/-- The filter loop of Coordinator.selectAgents: the scored agents at or
above minConfidence, in score order. -/
def keptAgents (scores : List (Agent × ℚ)) : List Agent :=
  (scores.filter fun s => decide (minConfidence ≤ s.2)).map (·.1)

/-- The fallback of Coordinator.selectAgents: when nobody passes the
threshold, keep all agents. -/
def resultAgents (scores : List (Agent × ℚ)) : List Agent :=
  if (keptAgents scores).length = 0 then scores.map (·.1) else keptAgents scores

/-- The post-sort tail of Coordinator.selectAgents: filter, fallback,
truncate to maxAgents. -/
def selectFrom (scores : List (Agent × ℚ)) (maxAgents : Nat) : List Agent :=
  if (resultAgents scores).length > maxAgents then (resultAgents scores).take maxAgents
  else resultAgents scores

/-- Coordinator.selectAgents, specified against the documented contract of
sort.Slice (the scores slice after sorting is SOME permutation of the scored
agents that is ordered by descending score; the Go implementation is pdqsort
and guarantees no more): empty registry short-circuits to nil; otherwise
every agent is scored with CanHandle, the scored list is sorted descending,
and selectFrom is applied. Every actual execution of selectAgents satisfies
this relation. -/
def SelectAgentsOutcome (agents : List Agent) (question : Str) (maxAgents : Nat)
    (out : List Agent) : Prop :=
  (agents = [] ∧ out = []) ∨
  ∃ scores : List (Agent × ℚ),
    scores.Perm (agents.map fun a => (a, a.canHandleFn question)) ∧
    List.Pairwise (fun x y => y.2 ≤ x.2) scores ∧
    out = selectFrom scores maxAgents

/-! ## internal/ratelimit/ratelimit.go -/

/-- The per-user timestamp table of the Limiter, time modelled as ℚ
(time.Now() is monotone within a process). -/
abbrev RLState := Int → List ℚ

/-- Keep only timestamps strictly inside the window (t.After(cutoff)). -/
def pruneFresh (ts : List ℚ) (cutoff : ℚ) : List ℚ :=
  ts.filter (fun t => decide (cutoff < t))

/-- Limiter.Allow from internal/ratelimit/ratelimit.go: prune the caller's
timestamps to the sliding window, reject when at least `limit` remain, else
record now and admit. Returns the new table and the admission flag. -/
def allowStep (limit : Nat) (window : ℚ) (st : RLState) (userID : Int) (now : ℚ) :
    RLState × Bool :=
  let fresh := pruneFresh (st userID) (now - window)
  if fresh.length ≥ limit then
    (fun u => if u = userID then fresh else st u, false)
  else
    (fun u => if u = userID then fresh ++ [now] else st u, true)

/-- A sequence of Allow calls: each event is (userID, call time). Returns the
final table and each event paired with its admission flag, in call order. -/
def runAllows (limit : Nat) (window : ℚ) :
    RLState → List (Int × ℚ) → RLState × List ((Int × ℚ) × Bool)
  | st, [] => (st, [])
  | st, e :: es =>
    let step := allowStep limit window st e.1 e.2
    let rest := runAllows limit window step.1 es
    (rest.1, (e, step.2) :: rest.2)

/-- The number of admitted calls of a given user whose call time lies in the
half-open window (τ, τ + window]. -/
def admittedInWindow (userID : Int) (τ window : ℚ) (outs : List ((Int × ℚ) × Bool)) : Nat :=
  outs.countP fun x =>
    x.1.1 = userID && x.2 && decide (τ < x.1.2) && decide (x.1.2 ≤ τ + window)

/-- Call times never decrease along the event sequence (time.Now() is
monotone). -/
def TimesMono (es : List (Int × ℚ)) : Prop :=
  List.Chain' (fun a b => a.2 ≤ b.2) es

/-! ## Claim C4 -/

/-- C4: for every LLM response string from which the balanced-brace JSON
extraction does not yield parseable JSON, parseResponse returns the tolerant
result with approved = true, confidence = 0.3 and the single issue recording
critic_parse_failed, and Review returns exactly this result without error. -/
theorem critic_parse_failure_tolerant
    (llm : Str → Except ReviewError Str) (unmarshal : Str → Option CriticResult)
    (answer question resp : Str) (sources : List SearchResult)
    (hllm : llm (buildPrompt answer sources question) = .ok resp)
    (hparse : unmarshal (extractJSON resp) = none) :
    parseResponse unmarshal resp = tolerantCriticResult ∧
    tolerantCriticResult.approved = true ∧
    tolerantCriticResult.confidence = 3 / 10 ∧
    tolerantCriticResult.issues =
      ["critic_parse_failed: could not parse LLM response".toList] ∧
    review llm unmarshal false answer sources question = .ok tolerantCriticResult := by
  have hp : parseResponse unmarshal resp = tolerantCriticResult := by
    unfold parseResponse
    rw [hparse]
  refine ⟨hp, rfl, rfl, rfl, ?_⟩
  unfold review
  rw [if_neg (by simp), hllm]
  simp only [hp]

/-- Witness for C4 at a concrete degenerate LLM and parser. -/
theorem critic_parse_failure_tolerant_witness :
    parseResponse (fun _ => none) "plain text".toList = tolerantCriticResult ∧
    tolerantCriticResult.approved = true ∧
    tolerantCriticResult.confidence = 3 / 10 ∧
    tolerantCriticResult.issues =
      ["critic_parse_failed: could not parse LLM response".toList] ∧
    review (fun _ => .ok ("plain text".toList)) (fun _ => none) false
      ("answer".toList) [] ("question".toList) = .ok tolerantCriticResult :=
  critic_parse_failure_tolerant (fun _ => .ok ("plain text".toList)) (fun _ => none)
    ("answer".toList) ("question".toList) ("plain text".toList) [] rfl rfl

/-! ## Claim C5 -/

/-- C5: toSourceRefs yields exactly one SourceRef per final ranked result, the
i-th marker is the string [S(i+1)] (1-indexed, contiguous, in emission
order), title and URL come from the i-th result, and the trust level is the
trust map entry for the result's domain, defaulting to medium when absent. -/
theorem toSourceRefs_marker_mapping (results : List SearchResult)
    (trustMap : List (Str × TrustLevel)) :
    (toSourceRefs results trustMap).length = results.length ∧
    ∀ i (h : i < (toSourceRefs results trustMap).length),
      ((toSourceRefs results trustMap).get ⟨i, h⟩).marker =
        "[S".toList ++ natToStr (i + 1) ++ "]".toList ∧
      ((toSourceRefs results trustMap).get ⟨i, h⟩).title = (results.getD i default).title ∧
      ((toSourceRefs results trustMap).get ⟨i, h⟩).url = (results.getD i default).url ∧
      (∀ level,
        lookupTrust trustMap (extractDomain (results.getD i default).url) = some level →
        ((toSourceRefs results trustMap).get ⟨i, h⟩).trustLevel = level) ∧
      (lookupTrust trustMap (extractDomain (results.getD i default).url) = none →
        ((toSourceRefs results trustMap).get ⟨i, h⟩).trustLevel = TrustLevel.medium) := by
  have hlen : (toSourceRefs results trustMap).length = results.length := by
    simp [toSourceRefs]
  refine ⟨hlen, ?_⟩
  intro i h
  have hi : i < results.length := hlen ▸ h
  have hget : (toSourceRefs results trustMap).get ⟨i, h⟩ =
      (let r := results.getD i default
       let trustLevel :=
         match lookupTrust trustMap (extractDomain r.url) with
         | some level => level
         | none => TrustLevel.medium
       { marker := "[S".toList ++ natToStr (i + 1) ++ "]".toList
         title := r.title
         url := r.url
         trustLevel := trustLevel }) := by
    simp only [toSourceRefs, List.get_eq_getElem, List.getElem_map, List.getElem_range]
  rw [hget]
  refine ⟨rfl, rfl, rfl, ?_, ?_⟩
  · intro level hl
    simp only [hl]
  · intro hl
    simp only [hl]

/-- Witness for C5 at a concrete two-result list whose first domain is in the
trust map: the first marker is [S1] and the mapped trust is high. -/
theorem toSourceRefs_marker_mapping_witness :
    ∃ h0 : 0 < (toSourceRefs
      [⟨"T1".toList, "https://www.a.com/x".toList, [], 9/10⟩,
       ⟨"T2".toList, "https://b.org/y".toList, [], 1/2⟩]
      [("a.com".toList, TrustLevel.high)]).length,
      ((toSourceRefs
        [⟨"T1".toList, "https://www.a.com/x".toList, [], 9/10⟩,
         ⟨"T2".toList, "https://b.org/y".toList, [], 1/2⟩]
        [("a.com".toList, TrustLevel.high)]).get ⟨0, h0⟩).marker = "[S1]".toList ∧
      ((toSourceRefs
        [⟨"T1".toList, "https://www.a.com/x".toList, [], 9/10⟩,
         ⟨"T2".toList, "https://b.org/y".toList, [], 1/2⟩]
        [("a.com".toList, TrustLevel.high)]).get ⟨0, h0⟩).trustLevel = TrustLevel.high := by
  have h := toSourceRefs_marker_mapping
    [⟨"T1".toList, "https://www.a.com/x".toList, [], 9/10⟩,
     ⟨"T2".toList, "https://b.org/y".toList, [], 1/2⟩]
    [("a.com".toList, TrustLevel.high)]
  have h0 : 0 < (toSourceRefs
      [⟨"T1".toList, "https://www.a.com/x".toList, [], 9/10⟩,
       ⟨"T2".toList, "https://b.org/y".toList, [], 1/2⟩]
      [("a.com".toList, TrustLevel.high)]).length := by
    rw [h.1]; decide
  refine ⟨h0, ?_, ?_⟩
  · rw [(h.2 0 h0).1]; decide
  · exact (h.2 0 h0).2.2.2.1 TrustLevel.high (by decide)

/-! ## Claim C3 -/

/-- One-step unfolding of the reviewWithCritic loop body. -/
theorem reviewLoop_unfold (strict : Bool)
    (ro : Nat → Str → Except ReviewError CriticResult)
    (io : Nat → Str → CriticResult → Except ReviewError Str)
    (rem att : Nat) (cur : Str) :
    reviewLoop strict ro io rem att cur =
      match ro att cur with
      | .error _ => (cur, 1, 0)
      | .ok result =>
        if ¬ needsRevisionStrict result strict then (cur, 1, 0)
        else
          match rem with
          | 0 => (cur, 1, 0)
          | r + 1 =>
            match io att cur result with
            | .error _ => (cur, 1, 1)
            | .ok improved =>
              let out := reviewLoop strict ro io r (att + 1) improved
              (out.1, out.2.1 + 1, out.2.2 + 1) := by
  rw [reviewLoop]

/-- Call-count bound of the reviewWithCritic loop: with `remaining` retries
left, at most remaining + 1 Review calls and at most remaining improve calls
are made. -/
theorem reviewLoop_counts (strict : Bool)
    (ro : Nat → Str → Except ReviewError CriticResult)
    (io : Nat → Str → CriticResult → Except ReviewError Str) :
    ∀ (rem att : Nat) (cur : Str),
      (reviewLoop strict ro io rem att cur).2.1 ≤ rem + 1 ∧
      (reviewLoop strict ro io rem att cur).2.2 ≤ rem := by
  intro rem
  induction rem with
  | zero =>
    intro att cur
    rw [reviewLoop_unfold]
    cases h : ro att cur with
    | error e => simp
    | ok r =>
      by_cases hn : needsRevisionStrict r strict
      · simp [hn]
      · simp [hn]
  | succ n ih =>
    intro att cur
    rw [reviewLoop_unfold]
    cases h : ro att cur with
    | error e => simp
    | ok r =>
      by_cases hn : needsRevisionStrict r strict
      · cases hi : io att cur r with
        | error e => simp [hn, hi]
        | ok improved =>
          have hih := ih (att + 1) improved
          simp only [hn, not_true_eq_false, if_false, hi]
          exact ⟨by omega, by omega⟩
      · simp [hn]

/-- C3: for every MaxRetries = R ≥ 0, strictness, oracles and initial answer,
reviewWithCritic terminates (it is a total function) with at most R + 1
Review calls and at most R improve calls, and an error from the critic or
from the improvement step makes the loop return the answer current at that
point instead of failing. -/
theorem reviewWithCritic_bounded (strict : Bool)
    (ro : Nat → Str → Except ReviewError CriticResult)
    (io : Nat → Str → CriticResult → Except ReviewError Str)
    (R : Nat) (answer : Str) :
    (reviewWithCritic strict ro io R answer).2.1 ≤ R + 1 ∧
    (reviewWithCritic strict ro io R answer).2.2 ≤ R ∧
    (∀ (rem att : Nat) (cur : Str) (e : ReviewError),
      ro att cur = .error e → (reviewLoop strict ro io rem att cur).1 = cur) ∧
    (∀ (rem att : Nat) (cur : Str) (r : CriticResult) (e : ReviewError),
      ro att cur = .ok r → needsRevisionStrict r strict = true →
      io att cur r = .error e →
      (reviewLoop strict ro io (rem + 1) att cur).1 = cur) := by
  refine ⟨(reviewLoop_counts strict ro io R 0 answer).1,
          (reviewLoop_counts strict ro io R 0 answer).2, ?_, ?_⟩
  · intro rem att cur e h
    rw [reviewLoop_unfold, h]
  · intro rem att cur r e h hn hi
    rw [reviewLoop_unfold, h]
    simp [hn, hi]

/-- Witness for C3: a critic that always rejects and an improver that always
errors, at R = 2; the loop returns the original answer after one review and
one improve call. -/
theorem reviewWithCritic_bounded_witness :
    (reviewWithCritic false
      (fun _ _ => .ok ⟨false, [], [], 0⟩)
      (fun _ _ _ => .error .llmFailed) 2 "draft".toList).2.1 ≤ 3 ∧
    (reviewWithCritic false
      (fun _ _ => .ok ⟨false, [], [], 0⟩)
      (fun _ _ _ => .error .llmFailed) 2 "draft".toList).2.2 ≤ 2 ∧
    (reviewLoop false
      (fun _ _ => .ok ⟨false, [], [], 0⟩)
      (fun _ _ _ => .error .llmFailed) 2 0 "draft".toList).1 = "draft".toList := by
  have h := reviewWithCritic_bounded false
    (fun _ _ => .ok ⟨false, [], [], 0⟩)
    (fun _ _ _ => .error .llmFailed) 2 "draft".toList
  refine ⟨h.1, h.2.1, ?_⟩
  exact h.2.2.2 1 0 "draft".toList ⟨false, [], [], 0⟩ .llmFailed rfl rfl rfl

/-! ## Claim C7 -/

/-- C7: for a non-empty keyword set, CanHandle (lower-case substring matching
of keywords against the question) returns 0 when no keyword matches, and
otherwise max(0.5, matches/|keywords|), which lies in [0.5, 1]. -/
theorem canHandle_scoring (keywords : List Str) (question : Str) (h : keywords ≠ []) :
    (matchCount keywords question = 0 → canHandle keywords question = 0) ∧
    (matchCount keywords question ≠ 0 →
      canHandle keywords question =
        max (1 / 2) ((matchCount keywords question : ℚ) / (keywords.length : ℚ)) ∧
      1 / 2 ≤ canHandle keywords question ∧ canHandle keywords question ≤ 1) := by
  have hlen : keywords.length ≠ 0 := by
    simpa [List.length_eq_zero] using h
  constructor
  · intro hm
    unfold canHandle
    simp [hlen, hm]
  · intro hm
    have hpos : (0 : ℚ) < (keywords.length : ℚ) := by
      exact_mod_cast Nat.pos_of_ne_zero hlen
    have hle : matchCount keywords question ≤ keywords.length := by
      unfold matchCount
      exact List.length_filter_le _ _
    have hconf1 : (matchCount keywords question : ℚ) / (keywords.length : ℚ) ≤ 1 :=
      (div_le_one hpos).mpr (by exact_mod_cast hle)
    have hval : canHandle keywords question =
        max (1 / 2) ((matchCount keywords question : ℚ) / (keywords.length : ℚ)) := by
      unfold canHandle
      simp only [hlen, if_false, hm]
      rcases lt_or_le ((matchCount keywords question : ℚ) / (keywords.length : ℚ)) (1 / 2)
        with hlt | hge
      · rw [if_pos hlt, max_eq_left hlt.le]
      · rw [if_neg (not_lt.mpr hge), max_eq_right hge]
    refine ⟨hval, ?_, ?_⟩
    · rw [hval]; exact le_max_left _ _
    · rw [hval]
      exact max_le (by norm_num) hconf1

/-- Witness for C7: one keyword that matches and one that does not; the score
is max(0.5, 1/2) = 1/2. -/
theorem canHandle_scoring_witness :
    matchCount ["market".toList, "crypto".toList] ("the Market today".toList) ≠ 0 ∧
    canHandle ["market".toList, "crypto".toList] ("the Market today".toList) = 1 / 2 := by
  have h := canHandle_scoring ["market".toList, "crypto".toList] ("the Market today".toList)
    (by decide)
  have hm : matchCount ["market".toList, "crypto".toList] ("the Market today".toList) = 1 := by
    decide
  refine ⟨by rw [hm]; decide, ?_⟩
  have hv := (h.2 (by rw [hm]; decide)).1
  rw [hv, hm]
  norm_num

/-! ## Claim C8 -/

/-- trimRight is Mathlib's rdropWhile. -/
theorem trimRight_eq_rdrop (l : Str) : trimRight l = l.rdropWhile isSpaceChar := rfl

/-- A list fixed by dropWhile stays fixed after removing a suffix with
rdropWhile: the head, when there is one, still fails the predicate. -/
theorem dropWhile_rdropWhile (p : Char → Bool) (l : Str)
    (h : List.dropWhile p l = l) :
    List.dropWhile p (l.rdropWhile p) = l.rdropWhile p := by
  obtain ⟨w, hw⟩ := List.rdropWhile_prefix p l
  cases hv : l.rdropWhile p with
  | nil => simp
  | cons a t =>
    rw [hv] at hw
    have hla : l = a :: (t ++ w) := by
      rw [← hw]
      simp
    have hpa : ¬ p a = true := by
      intro hpa
      rw [hla, List.dropWhile_cons, if_pos hpa] at h
      have hle : (List.dropWhile p (t ++ w)).length ≤ (t ++ w).length :=
        (List.dropWhile_sublist p).length_le
      have hlen := congrArg List.length h
      rw [List.length_cons] at hlen
      omega
    rw [List.dropWhile_cons, if_neg hpa]

/-- goTrimSpace is idempotent. -/
theorem trimSpace_idem (s : Str) : goTrimSpace (goTrimSpace s) = goTrimSpace s := by
  show trimRight (trimLeft (trimRight (trimLeft s))) = trimRight (trimLeft s)
  have hid : List.dropWhile isSpaceChar (trimLeft s) = trimLeft s := by
    unfold trimLeft
    exact List.dropWhile_idempotent isSpaceChar s
  have hL : trimLeft (trimRight (trimLeft s)) = trimRight (trimLeft s) := by
    show List.dropWhile isSpaceChar (trimRight (trimLeft s)) = trimRight (trimLeft s)
    rw [trimRight_eq_rdrop]
    exact dropWhile_rdropWhile isSpaceChar (trimLeft s) hid
  rw [hL, trimRight_eq_rdrop, trimRight_eq_rdrop, List.rdropWhile_idempotent]

/-- Trimming never lengthens a string. -/
theorem trimSpace_length_le (s : Str) : (goTrimSpace s).length ≤ s.length := by
  unfold goTrimSpace trimRight trimLeft
  have h1 : ((s.dropWhile isSpaceChar).reverse.dropWhile isSpaceChar).length ≤
      (s.dropWhile isSpaceChar).reverse.length :=
    (List.dropWhile_sublist isSpaceChar).length_le
  have h2 : (s.dropWhile isSpaceChar).length ≤ s.length :=
    (List.dropWhile_sublist isSpaceChar).length_le
  simp only [List.length_reverse] at h1 ⊢
  omega

/-- The concrete counterexample to Sanitize idempotence: 999 letters followed
by a space and one more letter. The raw text is 1001 bytes with no
surrounding whitespace, so the first Sanitize only truncates — to 999
letters plus a trailing space; the second Sanitize trims that space away. -/
def c8Input : Str := List.replicate 999 'a' ++ [' ', 'x']

set_option maxRecDepth 100000 in
/-- Counterexample to C8 as stated: Sanitize is not idempotent at c8Input
(the first application returns 1000 bytes ending in a space, the second
removes that space). -/
theorem sanitize_not_idempotent : sanitize (sanitize c8Input) ≠ sanitize c8Input := by
  intro h
  have h1 : (sanitize c8Input).length = 1000 := by decide
  have h2 : (sanitize (sanitize c8Input)).length = 999 := by decide
  have hlen := congrArg List.length h
  rw [h1, h2] at hlen
  exact absurd hlen (by decide)

/-- C8 (amended): Sanitize is idempotent on every input whose trimmed text is
at most 1000 bytes — in particular whenever the truncation branch does not
fire; when the trimmed text is longer, truncation can expose trailing
whitespace that a second application removes (see the counterexample). -/
theorem sanitize_idem_of_trim_short (x : Str)
    (h : (goTrimSpace x).length ≤ MaxQueryLength) :
    sanitize (sanitize x) = sanitize x := by
  have h1 : sanitize x = goTrimSpace x := by
    unfold sanitize
    rw [if_neg (by omega)]
  rw [h1]
  unfold sanitize
  simp only [trimSpace_idem]
  rw [if_neg (by omega)]

/-- Witness for the amended C8 at a short concrete input. -/
theorem sanitize_idem_of_trim_short_witness :
    (goTrimSpace ("  hello world  ".toList)).length ≤ MaxQueryLength ∧
    sanitize (sanitize ("  hello world  ".toList)) = sanitize ("  hello world  ".toList) :=
  ⟨by decide, sanitize_idem_of_trim_short ("  hello world  ".toList) (by decide)⟩

/-! ## Claim C10 -/

/-- StandardStrategy() from the domain package. -/
def standardStrategy : Strategy :=
  { type := "standard".toList
    maxQueries := 3
    maxResults := 15
    maxAnalysisIterations := 1
    useCritic := true
    timeoutSeconds := 60 }

/-- A request whose raw text is 1001 whitespace bytes: longer than 1000 bytes,
and trimming would bring it to 0 bytes. -/
def c10Request : QueryRequest :=
  { userID := 1
    text := List.replicate 1001 ' '
    onlyReliable := false
    strategy := standardStrategy }

set_option maxRecDepth 100000 in
/-- Counterexample to C10 as stated: this request exceeds 1000 bytes and
trimming would bring it under the cap, yet Validate rejects it with
ErrEmptyQuery — the empty-after-trim check runs before the length check — and
not with ErrQueryTooLong. -/
theorem validate_wsOnly_rejected_as_empty :
    c10Request.text.length > MaxQueryLength ∧
    (goTrimSpace c10Request.text).length ≤ MaxQueryLength ∧
    queryValidate c10Request = some DomainError.errEmptyQuery ∧
    queryValidate c10Request ≠ some DomainError.errQueryTooLong := by
  refine ⟨by decide, by decide, by decide, by decide⟩

/-- C10 (amended): every request whose raw text exceeds 1000 bytes is
rejected before sanitization — with ErrQueryTooLong when the trimmed text is
nonempty, and with ErrEmptyQuery when the text is all whitespace; and for
every request that passes validation, Sanitize only trims: its truncation
branch never fires, so no accepted query text is ever cut off. -/
theorem validate_before_sanitize (q : QueryRequest) :
    (q.text.length > MaxQueryLength →
      queryValidate q =
        some (if goTrimSpace q.text = [] then DomainError.errEmptyQuery
              else DomainError.errQueryTooLong)) ∧
    (queryValidate q = none → sanitize q.text = goTrimSpace q.text) := by
  constructor
  · intro hlen
    unfold queryValidate
    by_cases ht : goTrimSpace q.text = []
    · rw [if_pos ht, if_pos ht]
    · rw [if_neg ht, if_neg ht, if_pos hlen]
  · intro hv
    unfold queryValidate at hv
    by_cases ht : goTrimSpace q.text = []
    · rw [if_pos ht] at hv
      exact absurd hv (by simp)
    · rw [if_neg ht] at hv
      by_cases hlen : q.text.length > MaxQueryLength
      · rw [if_pos hlen] at hv
        exact absurd hv (by simp)
      · have hshort : (goTrimSpace q.text).length ≤ MaxQueryLength :=
          le_trans (trimSpace_length_le q.text) (by omega)
        unfold sanitize
        rw [if_neg (by omega)]

set_option maxRecDepth 100000 in
/-- Witness for the amended C10: a 1001-byte non-whitespace text is rejected
with ErrQueryTooLong, and a short valid request is sanitized by trimming
only. -/
theorem validate_before_sanitize_witness :
    queryValidate ⟨2, List.replicate 1001 'a', false, standardStrategy⟩ =
      some DomainError.errQueryTooLong ∧
    queryValidate ⟨3, "  hi there  ".toList, false, standardStrategy⟩ = none ∧
    sanitize ("  hi there  ".toList) = goTrimSpace ("  hi there  ".toList) := by
  have h1 := (validate_before_sanitize ⟨2, List.replicate 1001 'a', false, standardStrategy⟩).1
  have h2 := (validate_before_sanitize ⟨3, "  hi there  ".toList, false, standardStrategy⟩).2
  refine ⟨?_, ?_, ?_⟩
  · rw [h1 (by decide)]
    decide
  · decide
  · exact h2 (by decide)

/-! ## Claim C1 -/

/-- The dedup loop never emits a URL twice, nor any URL already seen. -/
theorem dedupAux_urls (l : List SearchResult) : ∀ (seen : List Str),
    ((dedupAux seen l).map (fun r => r.url)).Nodup ∧
    ∀ u ∈ seen, u ∉ (dedupAux seen l).map (fun r => r.url) := by
  induction l with
  | nil => intro seen; exact ⟨List.nodup_nil, by simp [dedupAux]⟩
  | cons r rs ih =>
    intro seen
    by_cases hmem : r.url ∈ seen
    · rw [dedupAux, if_pos hmem]
      exact ih seen
    · rw [dedupAux, if_neg hmem]
      have hih := ih (r.url :: seen)
      constructor
      · rw [List.map_cons, List.nodup_cons]
        exact ⟨hih.2 r.url (List.mem_cons_self _ _), hih.1⟩
      · intro u hu
        rw [List.map_cons, List.mem_cons]
        rintro (hc | hc)
        · exact hmem (hc ▸ hu)
        · exact hih.2 u (List.mem_cons_of_mem _ hu) hc

/-- C1: every merge-phase output of searchWithCache (any sorted permutation
of the URL-dedup of the drained results, truncated as the code does) has
pairwise distinct URLs, non-increasing scores, and length at most
maxResults. -/
theorem searchMerge_dedup_sorted_bounded (merged : List SearchResult)
    (maxResults : Nat) (out : List SearchResult)
    (h : SearchMergeOutcome merged maxResults out) :
    (out.map (fun r => r.url)).Nodup ∧ SortedByScoreDesc out ∧
    out.length ≤ maxResults := by
  obtain ⟨sorted, hperm, hsort, hout⟩ := h
  have hsub : out.Sublist sorted := by
    rw [hout]
    by_cases hlen : sorted.length > maxResults
    · rw [if_pos hlen]
      exact List.take_sublist _ _
    · rw [if_neg hlen]
  have hnodupDedup : ((dedupByURL merged).map (fun r => r.url)).Nodup :=
    (dedupAux_urls merged []).1
  have hnodupSorted : (sorted.map (fun r => r.url)).Nodup :=
    ((hperm.map (fun r => r.url)).nodup_iff).mpr hnodupDedup
  refine ⟨(hsub.map (fun r => r.url)).nodup hnodupSorted, hsort.sublist hsub, ?_⟩
  rw [hout]
  by_cases hlen : sorted.length > maxResults
  · rw [if_pos hlen]
    simp [List.length_take]
  · rw [if_neg hlen]
    omega

/-- Witness for C1 at a concrete input: three drained results, one duplicate
URL, truncation to a single result. -/
theorem searchMerge_dedup_sorted_bounded_witness :
    SearchMergeOutcome
      [⟨"t1".toList, "u1".toList, [], 1⟩, ⟨"t2".toList, "u2".toList, [], 2⟩,
       ⟨"t3".toList, "u1".toList, [], 5⟩] 1
      [⟨"t2".toList, "u2".toList, [], 2⟩] ∧
    (([⟨"t2".toList, "u2".toList, [], 2⟩] :
        List SearchResult).map (fun r => r.url)).Nodup ∧
    SortedByScoreDesc [⟨"t2".toList, "u2".toList, [], 2⟩] ∧
    ([⟨"t2".toList, "u2".toList, [], 2⟩] : List SearchResult).length ≤ 1 := by
  have houtcome : SearchMergeOutcome
      [⟨"t1".toList, "u1".toList, [], 1⟩, ⟨"t2".toList, "u2".toList, [], 2⟩,
       ⟨"t3".toList, "u1".toList, [], 5⟩] 1
      [⟨"t2".toList, "u2".toList, [], 2⟩] := by
    refine ⟨[⟨"t2".toList, "u2".toList, [], 2⟩, ⟨"t1".toList, "u1".toList, [], 1⟩],
      ?_, ?_, ?_⟩
    · decide
    · decide
    · decide
  have h := searchMerge_dedup_sorted_bounded _ 1 _ houtcome
  exact ⟨houtcome, h.1, h.2.1, h.2.2⟩

/-! ## Claim C6 -/

/-- C6: the coordinator quota and selection discipline. maxAgentsFor maps
quick→1, standard→2, deep→4 and anything else→2; every selection outcome
(any descending-sorted permutation of the CanHandle-scored agents, filtered
at 0.3, with the keep-all fallback, truncated) uses at most maxAgentsFor
agents, lists them in non-increasing CanHandle order, contains only agents
scoring at least 0.3 whenever some agent reaches 0.3, and keeps all agents
(up to truncation) when none does. -/
theorem selectAgents_quota (strategyType : Str) (agents : List Agent) (question : Str)
    (out : List Agent)
    (hsel : SelectAgentsOutcome agents question (maxAgentsFor strategyType) out) :
    (maxAgentsFor ("quick".toList) = 1 ∧ maxAgentsFor ("standard".toList) = 2 ∧
     maxAgentsFor ("deep".toList) = 4 ∧
     (strategyType ≠ "quick".toList → strategyType ≠ "standard".toList →
      strategyType ≠ "deep".toList → maxAgentsFor strategyType = 2)) ∧
    out.length ≤ maxAgentsFor strategyType ∧
    List.Pairwise (fun x y => y.canHandleFn question ≤ x.canHandleFn question) out ∧
    ((∃ a ∈ agents, minConfidence ≤ a.canHandleFn question) →
      ∀ a ∈ out, minConfidence ≤ a.canHandleFn question) ∧
    ((∀ a ∈ agents, a.canHandleFn question < minConfidence) →
      out.length = min (maxAgentsFor strategyType) agents.length) := by
  have hmax : maxAgentsFor ("quick".toList) = 1 ∧ maxAgentsFor ("standard".toList) = 2 ∧
      maxAgentsFor ("deep".toList) = 4 ∧
      (strategyType ≠ "quick".toList → strategyType ≠ "standard".toList →
       strategyType ≠ "deep".toList → maxAgentsFor strategyType = 2) := by
    refine ⟨by decide, by decide, by decide, ?_⟩
    intro h1 h2 h3
    unfold maxAgentsFor
    rw [if_neg h1, if_neg h2, if_neg h3]
  rcases hsel with ⟨hag, hout⟩ | ⟨scores, hperm, hsortd, hout⟩
  · subst hout
    refine ⟨hmax, by simp, List.Pairwise.nil, by simp, ?_⟩
    intro _
    simp [hag]
  · have hmem : ∀ p ∈ scores, p.2 = p.1.canHandleFn question := by
      intro p hp
      have : p ∈ agents.map fun a => (a, a.canHandleFn question) := hperm.mem_iff.mp hp
      obtain ⟨a, _ha, hpa⟩ := List.mem_map.mp this
      rw [← hpa]
    -- the pairwise order transfers from the score component to CanHandle
    have hsorted' : List.Pairwise
        (fun x y : Agent × ℚ => y.1.canHandleFn question ≤ x.1.canHandleFn question)
        scores := by
      refine List.Pairwise.imp_of_mem ?_ hsortd
      intro x y hx hy hle
      rw [← hmem x hx, ← hmem y hy]
      exact hle
    subst hout
    have hresPairwise : List.Pairwise
        (fun x y => y.canHandleFn question ≤ x.canHandleFn question)
        (resultAgents scores) := by
      unfold resultAgents keptAgents
      by_cases hf : ((scores.filter fun s => decide (minConfidence ≤ s.2)).map (·.1)).length = 0
      · rw [if_pos hf]
        exact (List.pairwise_map).mpr hsorted'
      · rw [if_neg hf]
        exact (List.pairwise_map).mpr (hsorted'.sublist (List.filter_sublist scores))
    refine ⟨hmax, ?_, ?_, ?_, ?_⟩
    · unfold selectFrom
      by_cases hlen : (resultAgents scores).length > maxAgentsFor strategyType
      · rw [if_pos hlen]
        simp [List.length_take]
      · rw [if_neg hlen]
        omega
    · unfold selectFrom
      by_cases hlen : (resultAgents scores).length > maxAgentsFor strategyType
      · rw [if_pos hlen]
        exact hresPairwise.sublist (List.take_sublist _ _)
      · rw [if_neg hlen]
        exact hresPairwise
    · intro ⟨a, ha, haconf⟩ x hx
      have hpair : (a, a.canHandleFn question) ∈ scores :=
        hperm.mem_iff.mpr (List.mem_map.mpr ⟨a, ha, rfl⟩)
      have hfmem : (a, a.canHandleFn question) ∈
          scores.filter fun s => decide (minConfidence ≤ s.2) :=
        List.mem_filter.mpr ⟨hpair, by simpa using haconf⟩
      have hfne : ¬ (keptAgents scores).length = 0 := by
        unfold keptAgents
        simp only [List.length_map, List.length_eq_zero]
        intro hnil
        rw [hnil] at hfmem
        exact absurd hfmem (List.not_mem_nil _)
      have hres : resultAgents scores = keptAgents scores := by
        unfold resultAgents
        rw [if_neg hfne]
      have hxres : x ∈ resultAgents scores := by
        unfold selectFrom at hx
        by_cases hlen : (resultAgents scores).length > maxAgentsFor strategyType
        · rw [if_pos hlen] at hx
          exact (List.take_sublist _ _).mem hx
        · rw [if_neg hlen] at hx
          exact hx
      rw [hres] at hxres
      unfold keptAgents at hxres
      obtain ⟨p, hpfil, hpx⟩ := List.mem_map.mp hxres
      have hpmem := List.mem_filter.mp hpfil
      have hpscore : minConfidence ≤ p.2 := by simpa using hpmem.2
      rw [← hpx, ← hmem p hpmem.1]
      exact hpscore
    · intro hall
      have hfnil : (scores.filter fun s => decide (minConfidence ≤ s.2)) = [] := by
        rw [List.filter_eq_nil_iff]
        intro p hp
        have hpag : p.1 ∈ agents := by
          have := hperm.mem_iff.mp hp
          obtain ⟨a, ha, hpa⟩ := List.mem_map.mp this
          rw [← hpa]
          exact ha
        have hlt := hall p.1 hpag
        rw [← hmem p hp] at hlt
        simp [not_le.mpr hlt]
      have hf0 : (keptAgents scores).length = 0 := by
        unfold keptAgents
        rw [hfnil]
        rfl
      have hres : resultAgents scores = scores.map (·.1) := by
        unfold resultAgents
        rw [if_pos hf0]
      have hreslen : (resultAgents scores).length = agents.length := by
        rw [hres, List.length_map, hperm.length_eq, List.length_map]
      unfold selectFrom
      by_cases hlen : (resultAgents scores).length > maxAgentsFor strategyType
      · rw [if_pos hlen, List.length_take]
        omega
      · rw [if_neg hlen]
        omega

/-- Witness for C6 at a concrete registry of two agents, quick strategy: the
selection keeps the single qualifying agent. -/
theorem selectAgents_quota_witness :
    SelectAgentsOutcome
      [⟨"market".toList, fun _ => 1⟩, ⟨"trends".toList, fun _ => 0⟩]
      ("q".toList) (maxAgentsFor ("quick".toList))
      (selectFrom [(⟨"market".toList, fun _ => 1⟩, 1), (⟨"trends".toList, fun _ => 0⟩, 0)]
        (maxAgentsFor ("quick".toList))) ∧
    (selectFrom [(⟨"market".toList, fun _ => 1⟩, 1), (⟨"trends".toList, fun _ => 0⟩, 0)]
      (maxAgentsFor ("quick".toList))).length ≤ maxAgentsFor ("quick".toList) := by
  have houtcome : SelectAgentsOutcome
      [⟨"market".toList, fun _ => 1⟩, ⟨"trends".toList, fun _ => 0⟩]
      ("q".toList) (maxAgentsFor ("quick".toList))
      (selectFrom [(⟨"market".toList, fun _ => 1⟩, 1), (⟨"trends".toList, fun _ => 0⟩, 0)]
        (maxAgentsFor ("quick".toList))) := by
    refine Or.inr ⟨[(⟨"market".toList, fun _ => 1⟩, 1), (⟨"trends".toList, fun _ => 0⟩, 0)],
      List.Perm.refl _, ?_, rfl⟩
    exact List.pairwise_pair.mpr (by norm_num)
  have h := selectAgents_quota ("quick".toList)
    [⟨"market".toList, fun _ => 1⟩, ⟨"trends".toList, fun _ => 0⟩]
    "q".toList _ houtcome
  exact ⟨houtcome, h.2.1⟩

/-! ## Claim C9 -/

/-- An Allow call for one user leaves every other user's timestamps
untouched. -/
theorem allowStep_other (N : Nat) (W : ℚ) (st : RLState) (u v : Int) (t : ℚ)
    (hne : v ≠ u) : (allowStep N W st u t).1 v = st v := by
  unfold allowStep
  by_cases h : (pruneFresh (st u) (t - W)).length ≥ N
  · rw [if_pos h]
    simp [hne]
  · rw [if_neg h]
    simp [hne]

/-- The admission decision depends only on the caller's own timestamps. -/
theorem allowStep_local (N : Nat) (W : ℚ) (st st' : RLState) (u : Int) (t : ℚ)
    (h : st u = st' u) : (allowStep N W st u t).2 = (allowStep N W st' u t).2 := by
  unfold allowStep
  rw [h]
  by_cases hc : (pruneFresh (st' u) (t - W)).length ≥ N
  · simp [hc]
  · simp [hc]

/-- Unfolding of the in-window admission count over one processed call. -/
theorem admittedInWindow_cons (uid : Int) (τ W : ℚ) (e : Int × ℚ) (ok : Bool)
    (rest : List ((Int × ℚ) × Bool)) :
    admittedInWindow uid τ W ((e, ok) :: rest) =
      admittedInWindow uid τ W rest +
      (if e.1 = uid ∧ ok = true ∧ τ < e.2 ∧ e.2 ≤ τ + W then 1 else 0) := by
  unfold admittedInWindow
  rw [List.countP_cons]
  congr 1
  by_cases h1 : e.1 = uid
  · by_cases h2 : ok = true
    · by_cases h3 : τ < e.2
      · by_cases h4 : e.2 ≤ τ + W
        · simp [h1, h2, h3, h4]
        · simp [h1, h2, h3, h4]
      · simp [h1, h2, h3]
    · simp [h1, h2]
  · simp [h1]

/-- First times-monotonicity consequence: the head time bounds every later
time. -/
theorem timesMono_head_le (e : Int × ℚ) (es : List (Int × ℚ)) (h : TimesMono (e :: es)) :
    ∀ x ∈ es, e.2 ≤ x.2 := by
  induction es generalizing e with
  | nil => simp
  | cons f fs ih =>
    intro x hx
    have h1 : e.2 ≤ f.2 := (List.chain'_cons.mp h).1
    rcases List.mem_cons.mp hx with rfl | hx'
    · exact h1
    · exact le_trans h1 (ih f (List.chain'_cons.mp h).2 x hx')

/-- Times-monotonicity is preserved on the tail. -/
theorem timesMono_tail {e : Int × ℚ} {es : List (Int × ℚ)} (h : TimesMono (e :: es)) :
    TimesMono es := by
  cases es with
  | nil => exact List.chain'_nil
  | cons f fs => exact (List.chain'_cons.mp h).2

/-- No call that happens after the window closes is counted in it. -/
theorem admittedInWindow_zero_of_late (N : Nat) (W : ℚ) (uid : Int) (τ : ℚ) :
    ∀ (es : List (Int × ℚ)) (st : RLState), (∀ x ∈ es, ¬ x.2 ≤ τ + W) →
      admittedInWindow uid τ W (runAllows N W st es).2 = 0 := by
  intro es
  induction es with
  | nil => intro st _; rfl
  | cons e es ih =>
    intro st hlate
    show admittedInWindow uid τ W
      ((e, (allowStep N W st e.1 e.2).2) :: (runAllows N W (allowStep N W st e.1 e.2).1 es).2) = 0
    rw [admittedInWindow_cons]
    have he : ¬ e.2 ≤ τ + W := hlate e (List.mem_cons_self _ _)
    rw [if_neg (by tauto)]
    rw [ih (allowStep N W st e.1 e.2).1 (fun x hx => hlate x (List.mem_cons_of_mem _ hx))]

/-- Core window invariant: along any monotone call sequence, the admitted
calls of a user inside a window (τ, τ+W], plus the user's stored timestamps
already inside that window (capped at N), never exceed N. -/
theorem runAllows_window_bound (N : Nat) (W : ℚ) (uid : Int) (τ : ℚ) :
    ∀ (es : List (Int × ℚ)) (st : RLState), TimesMono es →
      admittedInWindow uid τ W (runAllows N W st es).2 +
        min ((st uid).countP fun s => decide (τ < s)) N ≤ N := by
  intro es
  induction es with
  | nil =>
    intro st _
    show 0 + min ((st uid).countP fun s => decide (τ < s)) N ≤ N
    omega
  | cons e es ih =>
    intro st hmono
    have hmono' := timesMono_tail hmono
    show admittedInWindow uid τ W
      ((e, (allowStep N W st e.1 e.2).2) :: (runAllows N W (allowStep N W st e.1 e.2).1 es).2) +
        min ((st uid).countP fun s => decide (τ < s)) N ≤ N
    rw [admittedInWindow_cons]
    by_cases huid : e.1 = uid
    · -- the call is for the observed user
      by_cases hlate : e.2 ≤ τ + W
      · -- the call is at or before the window end; the cutoff is ≤ τ
        have hcut : e.2 - W ≤ τ := by linarith
        have hcount : ((pruneFresh (st uid) (e.2 - W)).countP fun s => decide (τ < s)) =
            ((st uid).countP fun s => decide (τ < s)) := by
          unfold pruneFresh
          rw [List.countP_filter]
          refine List.countP_congr ?_
          intro s _
          by_cases hs : τ < s
          · have : e.2 - W < s := lt_of_le_of_lt hcut hs
            simp [hs, this]
          · simp [hs]
        by_cases hfull : (pruneFresh (st e.1) (e.2 - W)).length ≥ N
        · -- rejected: no contribution, the pruned table has the same in-window count
          have hstep2 : (allowStep N W st e.1 e.2).2 = false := by
            unfold allowStep
            rw [if_pos hfull]
          have hstep1 : (allowStep N W st e.1 e.2).1 uid = pruneFresh (st uid) (e.2 - W) := by
            unfold allowStep
            rw [if_pos hfull]
            simp [huid]
          have hih := ih (allowStep N W st e.1 e.2).1 hmono'
          rw [hstep1, hcount] at hih
          rw [if_neg (by rw [hstep2]; tauto)]
          omega
        · -- admitted: the stored count grows with the call iff it is in the window
          have hstep2 : (allowStep N W st e.1 e.2).2 = true := by
            unfold allowStep
            rw [if_neg hfull]
          have hstep1 : (allowStep N W st e.1 e.2).1 uid =
              pruneFresh (st uid) (e.2 - W) ++ [e.2] := by
            unfold allowStep
            rw [if_neg hfull]
            simp [huid]
          have hfreshle : ((pruneFresh (st uid) (e.2 - W)).countP fun s => decide (τ < s)) ≤
              (pruneFresh (st uid) (e.2 - W)).length := List.countP_le_length _
          have hfresh : (pruneFresh (st uid) (e.2 - W)).length < N := by
            rw [huid] at hfull
            omega
          have hih := ih (allowStep N W st e.1 e.2).1 hmono'
          rw [hstep1, List.countP_append, hcount] at hih
          by_cases hin : τ < e.2
          · have hsingle : (([e.2] : List ℚ).countP fun s => decide (τ < s)) = 1 := by
              simp [List.countP_cons, hin]
            rw [hsingle] at hih
            rw [if_pos ⟨huid, hstep2, hin, hlate⟩]
            omega
          · have hsingle : (([e.2] : List ℚ).countP fun s => decide (τ < s)) = 0 := by
              simp [List.countP_cons, hin]
            rw [hsingle] at hih
            rw [if_neg (by tauto)]
            omega
      · -- the call is past the window end: so is every later call
        have hlater : ∀ x ∈ es, ¬ x.2 ≤ τ + W := by
          intro x hx hxle
          exact hlate (le_trans (timesMono_head_le e es hmono x hx) hxle)
        rw [admittedInWindow_zero_of_late N W uid τ es (allowStep N W st e.1 e.2).1 hlater]
        rw [if_neg (by tauto)]
        omega
    · -- the call is for a different user: the observed user's entry is untouched
      have hst : (allowStep N W st e.1 e.2).1 uid = st uid :=
        allowStep_other N W st e.1 uid e.2 (fun h => huid h.symm)
      have hih := ih (allowStep N W st e.1 e.2).1 hmono'
      rw [hst] at hih
      rw [if_neg (by tauto)]
      omega

/-- C9: the sliding-window rate limiter. A call is admitted iff fewer than N
timestamps survive pruning to the window, and admission records now;
distinct principals never affect each other (other entries are untouched and
the decision reads only the caller's entry); and along any monotone call
sequence from the empty table, at most N calls of any single principal are
admitted inside any window (τ, τ+W]. -/
theorem limiter_allow_window (N : Nat) (W : ℚ) :
    (∀ (st : RLState) (u : Int) (now : ℚ),
      ((allowStep N W st u now).2 = true ↔ (pruneFresh (st u) (now - W)).length < N) ∧
      ((allowStep N W st u now).2 = true →
        (allowStep N W st u now).1 u = pruneFresh (st u) (now - W) ++ [now]) ∧
      (∀ v, v ≠ u → (allowStep N W st u now).1 v = st v) ∧
      (∀ st' : RLState, st u = st' u →
        (allowStep N W st u now).2 = (allowStep N W st' u now).2)) ∧
    (∀ (es : List (Int × ℚ)) (uid : Int) (τ : ℚ), TimesMono es →
      admittedInWindow uid τ W (runAllows N W (fun _ => []) es).2 ≤ N) := by
  constructor
  · intro st u now
    refine ⟨?_, ?_, ?_, ?_⟩
    · constructor
      · intro h
        by_contra hfull
        have : (allowStep N W st u now).2 = false := by
          unfold allowStep
          rw [if_pos (by omega)]
        rw [this] at h
        exact absurd h (by simp)
      · intro h
        unfold allowStep
        rw [if_neg (by omega)]
    · intro h
      unfold allowStep
      by_cases hfull : (pruneFresh (st u) (now - W)).length ≥ N
      · exfalso
        have : (allowStep N W st u now).2 = false := by
          unfold allowStep
          rw [if_pos hfull]
        rw [this] at h
        exact absurd h (by simp)
      · rw [if_neg hfull]
        simp
    · intro v hv
      exact allowStep_other N W st u v now hv
    · intro st' hst
      exact allowStep_local N W st st' u now hst
  · intro es uid τ hmono
    have h := runAllows_window_bound N W uid τ es (fun _ => []) hmono
    simp only [List.countP_nil] at h
    omega

/-- Witness for C9 at a concrete run: limit 2, window 60, three calls of user
1 and one of user 2 inside one minute — user 1's third call is rejected and
at most 2 calls are admitted in the window. -/
theorem limiter_allow_window_witness :
    ((allowStep 2 (60 : ℚ) (fun _ => []) 1 0).2 = true ↔
      (pruneFresh (((fun _ => []) : RLState) 1) ((0 : ℚ) - 60)).length < 2) ∧
    TimesMono [((1 : Int), (0 : ℚ)), (1, 10), (1, 20), (2, 20)] ∧
    admittedInWindow 1 (-1) 60
      (runAllows 2 60 (fun _ => []) [((1 : Int), (0 : ℚ)), (1, 10), (1, 20), (2, 20)]).2 ≤ 2 := by
  have hmono : TimesMono [((1 : Int), (0 : ℚ)), (1, 10), (1, 20), (2, 20)] := by
    refine List.chain'_cons.mpr ⟨by norm_num, ?_⟩
    refine List.chain'_cons.mpr ⟨by norm_num, ?_⟩
    refine List.chain'_cons.mpr ⟨by norm_num, ?_⟩
    exact List.chain'_singleton _
  refine ⟨((limiter_allow_window 2 60).1 (fun _ => []) 1 0).1, hmono, ?_⟩
  exact (limiter_allow_window 2 60).2 [((1 : Int), (0 : ℚ)), (1, 10), (1, 20), (2, 20)]
    1 (-1) hmono

/-! ## Claim C2 -/

/-- Thirteen already-deduplicated results (distinct URLs) as drained from the
results channel: u0 and u1 tie at score 5, every other score is distinct.
Thirteen elements exceed the insertion-sort cutoff (12) of pdqsort, so
sort.Slice partitions: choosePivot picks index 6 (median of the scores at
indices 3, 6, 9 — no index swaps, increasing hint), partialInsertionSort
bails out at the first unsorted pair, and partition's Swap(a, pivot) plus the
crossing Swap(1, 5) carry the tied element u1 in front of u0. -/
def c2Input : List SearchResult :=
  [⟨"t0".toList, "u0".toList, [], 5⟩,
   ⟨"t1".toList, "u1".toList, [], 5⟩,
   ⟨"t2".toList, "u2".toList, [], 13⟩,
   ⟨"t3".toList, "u3".toList, [], 12⟩,
   ⟨"t4".toList, "u4".toList, [], 11⟩,
   ⟨"t5".toList, "u5".toList, [], 10⟩,
   ⟨"t6".toList, "u6".toList, [], 9⟩,
   ⟨"t7".toList, "u7".toList, [], 8⟩,
   ⟨"t8".toList, "u8".toList, [], 7⟩,
   ⟨"t9".toList, "u9".toList, [], 6⟩,
   ⟨"t10".toList, "u10".toList, [], 4⟩,
   ⟨"t11".toList, "u11".toList, [], 3⟩,
   ⟨"t12".toList, "u12".toList, [], 2⟩]

set_option maxRecDepth 100000 in
/-- C2 fails on the code: the dedup step preserves first-seen order (here it
is the identity, all URLs being distinct), u0 is first-seen before u1 with
equal scores, yet the merge phase of searchWithCache — sort.Slice, which is
pdqsort, not a stable sort — emits u1 (position 8) before u0 (position 9).
The spec requires a stable sort (sort.SliceStable); the code calls
sort.Slice. -/
theorem searchMerge_reorders_tied_urls :
    dedupByURL c2Input = c2Input ∧
    (c2Input.map (fun r => r.url)).indexOf ("u0".toList) = 0 ∧
    (c2Input.map (fun r => r.url)).indexOf ("u1".toList) = 1 ∧
    (c2Input.getD 0 default).score = (c2Input.getD 1 default).score ∧
    ((searchMerge c2Input 15).map (fun r => r.url)).indexOf ("u1".toList) = 8 ∧
    ((searchMerge c2Input 15).map (fun r => r.url)).indexOf ("u0".toList) = 9 := by
  decide

end FintechBot
